import Mathlib

/-!
Shallow embedding of the chain-allocator core of `src/src/game/editor/editor2.h`
(`CMemBlock`, `CChainAllocator`, `CDynArray`, `CDynArraySB`), together with
proofs about the claims of the specification.

Modelling conventions:
* Machine integers become `Nat` (or `Int` where the sign matters, such as
  `CMemBlock::m_Count`, which `Dealloc` compares against 0).
* The ring-usage byte array `m_aRingUsed` is a `List Nat` of length
  `ELT_COUNT_MAX / RING_ELT_COUNT`.  The source reads 8 bytes at a time
  (`*(u64*)(m_aRingUsed+i)`), which can reach past the end of the bitmap;
  such a read hits memory that does not belong to the bitmap (uninitialised
  gap or element storage in the real layout) and is modelled by an arbitrary
  junk function fixed at `Init` (the contents of the adjacent memory).
  Writes past the end of the bitmap leave the modelled state unchanged
  (they land in memory the bitmap does not own).
* The element buffer is a `List α` of length `ELT_COUNT_MAX`; reads outside
  it return an arbitrary junk value (unowned memory), writes outside it are
  dropped (they corrupt memory the buffer does not own).
* `mem_alloc`ed fallback blocks are modelled by a heap of lists addressed by
  a fresh id; a pointer is either null, a pool offset, or a heap id
  (the spec's design notes call for exactly this provenance tag in place of
  the source's address-range comparison).
-/

/-- Address of a block's first element: the null pointer, an offset into the
allocator's element buffer (`m_pElementBuffer + off`), or a heap allocation. -/
inductive Addr where
  | null : Addr
  | pool (off : Nat) : Addr
  | heap (id : Nat) : Addr
deriving DecidableEq, Repr

/-- `CMemBlock<T>`: start pointer and element count (`m_Count` is a C `int`). -/
structure MemBlock (α : Type) where
  start : Addr
  count : Int
deriving DecidableEq, Repr

/-- State of one `CChainAllocator<T>` after `Init`, plus the modelled heap used
by the `mem_alloc` fallback.  `junk` and `bufJunk` are the (arbitrary, fixed)
contents of the memory adjacent to the bitmap and the element buffer. -/
structure AllocState (α : Type) where
  ringUsed : List Nat
  junk : Nat → Nat
  buffer : List α
  bufJunk : Nat → α
  eltCountMax : Nat
  ringEltCount : Nat
  zeroElt : α
  nextHeapId : Nat
  heapLive : List Nat
  heapData : Nat → List α

/-- `TOTAL_RING_COUNT = ELT_COUNT_MAX / RING_ELT_COUNT`. -/
def totalRingCount {α : Type} (st : AllocState α) : Nat :=
  st.eltCountMax / st.ringEltCount

/-- Read one byte at offset `i` from `m_aRingUsed`.  Inside the bitmap this is
the stored byte; past its end it is whatever the adjacent memory holds. -/
def byteAt {α : Type} (st : AllocState α) (i : Nat) : Nat :=
  match st.ringUsed[i]? with
  | some v => v
  | none => st.junk i % 256

/-- The 8-byte little-endian read `*(u64*)(m_aRingUsed+i)`. -/
def ring8 {α : Type} (st : AllocState α) (i : Nat) : Nat :=
  byteAt st i
    + byteAt st (i + 1) * 256
    + byteAt st (i + 2) * 65536
    + byteAt st (i + 3) * 16777216
    + byteAt st (i + 4) * 4294967296
    + byteAt st (i + 5) * 1099511627776
    + byteAt st (i + 6) * 281474976710656
    + byteAt st (i + 7) * 72057594037927936

/-- `(u64)0xFFFFFFFFFFFFFFFF`. -/
def val64Full : Nat := 18446744073709551615

/-- Write the values `vs` into `l` starting at index `s` (`memcpy`/`memset`
byte-by-byte); writes past the end of `l` land in memory `l` does not own and
leave the modelled list unchanged. -/
def writeRange {α : Type} : List α → Nat → List α → List α
  | l, _, [] => l
  | l, s, v :: vs => writeRange (l.set s v) (s + 1) vs

/-- `Init(ElementCountMax, RingElementCount)`: zero-filled bitmap of
`TOTAL_RING_COUNT` bytes; the element buffer is uninitialised memory. -/
def initAlloc {α : Type} (eltCountMax ringEltCount : Nat) (junk : Nat → Nat)
    (bufJunk : Nat → α) (zeroElt : α) : AllocState α :=
  { ringUsed := List.replicate (eltCountMax / ringEltCount) 0
    junk := junk
    buffer := (List.range eltCountMax).map bufJunk
    bufJunk := bufJunk
    eltCountMax := eltCountMax
    ringEltCount := ringEltCount
    zeroElt := zeroElt
    nextHeapId := 0
    heapLive := []
    heapData := fun _ => [] }

/-- The scan loop of `CChainAllocator::Alloc`.  One call is one iteration of
`for(int i = 0; i < TOTAL_RING_COUNT; i++)`; `start`/`rings` are
`ChainRingStart`/`ChainRingCount`.  Returns the chosen `(ChainRingStart,
ChainRingCount)` or `none` when the loop exits (fallback), together with the
list of indices `i` at which the 8-byte read `*(u64*)(m_aRingUsed+i)` was
performed.  `fuel` bounds the recursion; since `i` strictly increases on every
iteration that does not return, `totalRingCount + 1` units are never
exhausted before the loop's own exit. -/
def allocScan {α : Type} (st : AllocState α) (count : Nat) :
    Nat → Nat → Nat → Nat → List Nat → Option (Nat × Nat) × List Nat
  | 0, _, _, _, trace => (none, trace)
  | fuel + 1, i, start, rings, trace =>
    if i < totalRingCount st then
      let trace2 := trace ++ [i]
      let w := ring8 st i
      if w = 0 then
        let m := min count 8
        let rings2 := rings + m
        if rings2 * st.ringEltCount ≥ count then (some (start, rings2), trace2)
        else allocScan st count fuel (i + m) start rings2 trace2
      else if w = val64Full then
        allocScan st count fuel (i + 8) (i + 8) 0 trace2
      else if byteAt st i ≠ 0 then
        allocScan st count fuel (i + 1) (i + 1) 0 trace2
      else
        let rings2 := rings + 1
        if rings2 * st.ringEltCount ≥ count then (some (start, rings2), trace2)
        else allocScan st count fuel (i + 1) start rings2 trace2
    else (none, trace)

/-- The `dbg_assert(ChainRingStart*RING_ELT_COUNT + Block.m_Count <=
ELT_COUNT_MAX, "Something went wrong")` condition checked by `Alloc` before
returning a pool block. -/
@[reducible]
def allocAssertOk {α : Type} (st : AllocState α) (start rings : Nat) : Prop :=
  start * st.ringEltCount + rings * st.ringEltCount ≤ st.eltCountMax

/-- `CChainAllocator::Alloc(Count)`.  On a successful scan, marks the chosen
rings used (`memset(..., 0xFF, ...)`), zero-fills the block's element range
and returns a pool block.  Otherwise falls back to `mem_alloc` and returns a
zero-filled heap block of exactly `Count` elements.  (`dbg_break()` under
`CONF_DEBUG` — Modelled from the spec: `base/system.h` is not under `src/`;
per spec section 7 the allocation still completes in either build, so the
trap is modelled as returning.  `dbg_assert` likewise does not interrupt.) -/
def allocBlock {α : Type} (st : AllocState α) (count : Nat) :
    MemBlock α × AllocState α :=
  match (allocScan st count (totalRingCount st + 1) 0 0 0 []).1 with
  | some (start, rings) =>
    let blk : MemBlock α :=
      { start := Addr.pool (start * st.ringEltCount)
        count := (rings * st.ringEltCount : Nat) }
    let st2 := { st with
      ringUsed := writeRange st.ringUsed start (List.replicate rings 255)
      buffer := writeRange st.buffer (start * st.ringEltCount)
        (List.replicate (rings * st.ringEltCount) st.zeroElt) }
    (blk, st2)
  | none =>
    let id := st.nextHeapId
    let blk : MemBlock α := { start := Addr.heap id, count := (count : Nat) }
    let st2 := { st with
      nextHeapId := id + 1
      heapLive := id :: st.heapLive
      heapData := fun j => if j = id then List.replicate count st.zeroElt else st.heapData j }
    (blk, st2)

/-- `CChainAllocator::Dealloc(pBlock)`.  Returns the updated allocator state
and the updated block descriptor (the source mutates `pBlock->m_Count` in
place).  A heap pointer lies outside the pool buffer, so the source's
address-range test `Start >= 0 && Start+Count <= ELT_COUNT_MAX` is false for
it; `mem_free` of a pool-interior pointer (a pool block whose range check
fails) releases nothing that the model tracks. -/
def dealloc {α : Type} (st : AllocState α) (blk : MemBlock α) :
    AllocState α × MemBlock α :=
  if blk.count ≤ 0 then (st, blk)
  else
    match blk.start with
    | Addr.pool off =>
      if (off : Int) + blk.count ≤ (st.eltCountMax : Int) then
        let ru := writeRange st.ringUsed (off / st.ringEltCount)
          (List.replicate (blk.count.toNat / st.ringEltCount) 0)
        ({ st with ringUsed := ru }, { blk with count := 0 })
      else (st, { blk with count := 0 })
    | Addr.heap id =>
      ({ st with heapLive := st.heapLive.erase id }, { blk with count := 0 })
    | Addr.null => (st, { blk with count := 0 })

/-- Read the element at index `i` of a block (`Block.Get()[i]`).  Reads of
pool positions past the element buffer, or of heap positions past the block's
allocation, return unowned memory. -/
def blockAt {α : Type} (st : AllocState α) (blk : MemBlock α) (i : Nat) : α :=
  match blk.start with
  | Addr.null => st.bufJunk i
  | Addr.pool off =>
    match st.buffer[off + i]? with
    | some v => v
    | none => st.bufJunk (off + i)
  | Addr.heap id =>
    match (st.heapData id)[i]? with
    | some v => v
    | none => st.bufJunk i

/-- Read `cnt` consecutive elements of a block starting at index `off`. -/
def readBlock {α : Type} (st : AllocState α) (blk : MemBlock α) (off cnt : Nat) :
    List α :=
  (List.range cnt).map fun k => blockAt st blk (off + k)

/-- Write the values `vs` into a block starting at element index `off`
(`mem_copy(Block.Get()+off, ...)`). -/
def writeBlock {α : Type} (st : AllocState α) (blk : MemBlock α) (off : Nat)
    (vs : List α) : AllocState α :=
  match blk.start with
  | Addr.null => st
  | Addr.pool p => { st with buffer := writeRange st.buffer (p + off) vs }
  | Addr.heap id =>
    { st with heapData := fun j =>
        if j = id then writeRange (st.heapData j) off vs else st.heapData j }

/-- `CDynArray<T>`: current block and live element count (`m_EltCount`).
The bound allocator is passed explicitly to each operation. -/
structure DynArray (α : Type) where
  block : MemBlock α
  eltCount : Nat
deriving Repr

/-- `CDynArray::Init`: null block, zero counts. -/
def emptyArr {α : Type} : DynArray α := { block := { start := Addr.null, count := 0 }, eltCount := 0 }

/-- `CDynArray::Capacity() = m_MemBlock.m_Count`. -/
def capacity {α : Type} (arr : DynArray α) : Nat := arr.block.count.toNat

/-- `CDynArray::operator[]`. -/
def arrGet {α : Type} (st : AllocState α) (arr : DynArray α) (i : Nat) : α :=
  blockAt st arr.block i

/-- `CDynArray::Reserve(NewCapacity)`: no-op unless the capacity grows;
otherwise allocate a new block, `mem_copy` the old `Capacity()` elements into
it, `Dealloc` the old block and adopt the new one. -/
def reserve {α : Type} (st : AllocState α) (arr : DynArray α) (newCap : Nat) :
    AllocState α × DynArray α :=
  if newCap ≤ capacity arr then (st, arr)
  else
    let pr := allocBlock st newCap
    let vals := readBlock pr.2 arr.block 0 (capacity arr)
    let st2 := writeBlock pr.2 pr.1 0 vals
    let st3 := (dealloc st2 arr.block).1
    (st3, { arr with block := pr.1 })

/-- `CDynArray::Add(aElements, Count)`: grow via
`Reserve(max(Capacity()*2, m_EltCount+Count))` when
`m_EltCount+Count >= Capacity()`, then copy the new elements in. -/
def addMany {α : Type} (st : AllocState α) (arr : DynArray α) (vs : List α) :
    AllocState α × DynArray α :=
  let pr :=
    if arr.eltCount + vs.length ≥ capacity arr then
      reserve st arr (max (capacity arr * 2) (arr.eltCount + vs.length))
    else (st, arr)
  let st2 := writeBlock pr.1 pr.2.block pr.2.eltCount vs
  (st2, { pr.2 with eltCount := pr.2.eltCount + vs.length })

/-- `CDynArray::Add(Elt)`, which calls `Add(&Elt, 1)`. -/
def addOne {α : Type} (st : AllocState α) (arr : DynArray α) (v : α) :
    AllocState α × DynArray α :=
  addMany st arr [v]

/-- `CDynArray::RemoveByIndex(Index)`: overwrite slot `Index` with the last
live element and decrement the live count (swap-remove). -/
def removeByIndex {α : Type} (st : AllocState α) (arr : DynArray α) (idx : Nat) :
    AllocState α × DynArray α :=
  let last := arrGet st arr (arr.eltCount - 1)
  let st2 := writeBlock st arr.block idx [last]
  (st2, { arr with eltCount := arr.eltCount - 1 })

/-- `CDynArray::RemoveByIndexSlide(Index)`: `memmove` the tail down one slot
and decrement the live count (order preserving). -/
def removeByIndexSlide {α : Type} (st : AllocState α) (arr : DynArray α)
    (idx : Nat) : AllocState α × DynArray α :=
  let tail := readBlock st arr.block (idx + 1) (arr.eltCount - (idx + 1))
  let st2 := writeBlock st arr.block idx tail
  (st2, { arr with eltCount := arr.eltCount - 1 })

/-- One client call on an allocator: `Alloc(count)`, or `Dealloc` of the
`idx`-th still-live block previously returned by `Alloc`. -/
inductive AllocOp where
  | alloc (count : Nat) : AllocOp
  | dealloc (idx : Nat) : AllocOp

/-- Allocator state together with the list of issued, not-yet-deallocated
blocks (the ghost bookkeeping of a well-behaved client). -/
structure TraceState (α : Type) where
  st : AllocState α
  live : List (MemBlock α)

/-- Execute one client call. -/
def traceStep {α : Type} (ts : TraceState α) : AllocOp → TraceState α
  | AllocOp.alloc n =>
    let pr := allocBlock ts.st n
    { st := pr.2, live := ts.live ++ [pr.1] }
  | AllocOp.dealloc i =>
    match ts.live[i]? with
    | none => ts
    | some blk => { st := (dealloc ts.st blk).1, live := ts.live.eraseIdx i }

/-- Execute a sequence of client calls. -/
def runTrace {α : Type} (ops : List AllocOp) (ts : TraceState α) : TraceState α :=
  ops.foldl traceStep ts

/-- `ρ` is one of the rings of pool block `blk` (ring size `r`): the block is
live (`0 < m_Count`), starts in the pool buffer, and `ρ` lies in
`[off/r, off/r + count/r)`. -/
def inRingRange {α : Type} (r : Nat) (blk : MemBlock α) (ρ : Nat) : Prop :=
  ∃ off, blk.start = Addr.pool off ∧ 0 < blk.count ∧
    off / r ≤ ρ ∧ ρ < off / r + blk.count.toNat / r

/-- Two blocks do not overlap as ring ranges (vacuous unless both are live
pool blocks). -/
def poolDisjoint {α : Type} (r : Nat) (b1 b2 : MemBlock α) : Prop :=
  ∀ ρ, inRingRange r b1 ρ → inRingRange r b2 ρ → False

/-- Naive one-ring-at-a-time first-fit scan, written from the spec's words:
round the request up to ring granularity and take the first contiguous run of
free bitmap rings of that length. -/
def naiveFirstFit {α : Type} (st : AllocState α) (count : Nat) :
    Option (Nat × Nat) :=
  let need := (count + st.ringEltCount - 1) / st.ringEltCount
  ((List.range (totalRingCount st)).find? fun s =>
    (List.range need).all fun k =>
      decide (s + k < totalRingCount st) && decide (byteAt st (s + k) = 0)).map
    fun s => (s, need)

/-- `CDynArraySB<T, BASE_COUNT>` (storage bookkeeping only): whether `list`
currently points at the inline `m_BaseData` buffer or at a separately
allocated one, plus `list_size`/`num_elements`. -/
structure DynArraySB where
  onHeap : Bool
  listSize : Nat
  numElements : Nat
  baseCount : Nat
deriving DecidableEq, Repr

/-- Freshly constructed `CDynArraySB`: `list = m_BaseData`,
`list_size = BASE_COUNT`. -/
def sbInit (baseCount : Nat) : DynArraySB :=
  { onHeap := false, listSize := baseCount, numElements := 0, baseCount := baseCount }

/-- Modelled from the spec: `array<T>::alloc` of `base/tl/array.h` is not
under `src/`.  Per spec sections 2/4.3 it points `list` at a separately
allocated buffer of the requested size (the base class cannot name the
derived class's inline buffer), so after it the storage is heap storage. -/
def parentAlloc (sb : DynArraySB) (newLen : Nat) : DynArraySB :=
  { sb with onHeap := true, listSize := newLen,
            numElements := min sb.numElements newLen }

/-- Modelled from the spec: `array<T>::clear` of `base/tl/array.h` is not
under `src/`.  It resets the array to a fresh minimal separately allocated
buffer; it never points `list` at the derived class's inline buffer. -/
def parentClear (sb : DynArraySB) : DynArraySB :=
  { sb with onHeap := true, listSize := 1, numElements := 0 }

/-- Modelled from the spec: `array<T>::set_size` of `base/tl/array.h` is not
under `src/`.  Per spec section 4.3 it grows through a separately allocated
buffer when the requested size exceeds the current capacity, and otherwise
only changes the element count. -/
def parentSetSize (sb : DynArraySB) (newSize : Nat) : DynArraySB :=
  if sb.listSize < newSize then
    { (parentAlloc sb newSize) with numElements := newSize }
  else { sb with numElements := newSize }

/-- `CDynArraySB::clear`: reset in place while still on the inline buffer,
defer to the base class otherwise. -/
def sbClear (sb : DynArraySB) : DynArraySB :=
  if sb.onHeap = false then
    { sb with listSize := sb.baseCount, numElements := 0 }
  else parentClear sb

/-- `CDynArraySB::alloc(new_len)`: drop the inline buffer
(`list = 0x0`) and defer to the base class. -/
def sbAlloc (sb : DynArraySB) (newLen : Nat) : DynArraySB :=
  parentAlloc { sb with onHeap := true } newLen

/-- `CDynArraySB::set_size_zero(new_size)`: `ParentT::set_size` plus
zero-filling of the newly exposed elements (contents are not modelled). -/
def sbSetSizeZero (sb : DynArraySB) (newSize : Nat) : DynArraySB :=
  parentSetSize sb newSize

/-- One operation on a `CDynArraySB` (clear, shrink, growth). -/
inductive SBOp where
  | clear : SBOp
  | allocLen (n : Nat) : SBOp
  | setSizeZero (n : Nat) : SBOp

/-- Execute one `CDynArraySB` operation. -/
def sbStep (sb : DynArraySB) : SBOp → DynArraySB
  | SBOp.clear => sbClear sb
  | SBOp.allocLen n => sbAlloc sb n
  | SBOp.setSizeZero n => sbSetSizeZero sb n

/-- Execute a sequence of `CDynArraySB` operations. -/
def sbRun (ops : List SBOp) (sb : DynArraySB) : DynArraySB :=
  ops.foldl sbStep sb

/-! Concrete instances used to evaluate the code on specific inputs.
`jZero`/`jFF` are two possible contents of the uninitialised memory adjacent
to the bitmap (`mem_alloc` does not clear it). -/

/-- Adjacent memory that happens to hold zero bytes. -/
def jZero : Nat → Nat := fun _ => 0

/-- Adjacent memory that happens to hold 0xFF bytes. -/
def jFF : Nat → Nat := fun _ => 255

/-- Uninitialised element memory holding zeros. -/
def bjZero : Nat → Int := fun _ => 0

/-- The spec's running example: `CChainAllocator<int32>` with
`ElementCountMax = 64`, `RingElementCount = 8`, freshly initialised. -/
def stEx64x8 : AllocState Int := initAlloc 64 8 jZero bjZero 0

/-- A small pool: `ElementCountMax = 9`, `RingElementCount = 1` (9 rings). -/
def stEx9x1 : AllocState Int := initAlloc 9 1 jZero bjZero 0

/-- A pool with fewer than 8 rings: `ElementCountMax = 4`,
`RingElementCount = 1` (4 rings). -/
def stEx4x1 : AllocState Int := initAlloc 4 1 jZero bjZero 0

/-- `ElementCountMax = 64`, `RingElementCount = 8`, with nonzero bytes in the
memory adjacent to the bitmap. -/
def stEx64x8F : AllocState Int := initAlloc 64 8 jFF bjZero 0

/-- `ElementCountMax = 64`, `RingElementCount = 1`, nonzero adjacent memory. -/
def stEx64x1F : AllocState Int := initAlloc 64 1 jFF bjZero 0

/-- A dynamic array filled with seven elements `1..7` on `stEx64x8F`
(capacity 8 = one ring after the first growth). -/
def c6Pre : AllocState Int × DynArray Int :=
  (List.range 7).foldl (fun acc k => addOne acc.1 acc.2 ((k : Int) + 1))
    (stEx64x8F, emptyArr)

/-- The eighth `Add` on `c6Pre`: live count 7 is strictly below capacity 8,
yet `m_EltCount+Count >= Capacity()` holds, so the array grows. -/
def c6Post : AllocState Int × DynArray Int := addOne c6Pre.1 c6Pre.2 8

/-- A dynamic array holding `[10, 20, 30]` on `stEx64x1F`. -/
def c7Pre : AllocState Int × DynArray Int :=
  [10, 20, 30].foldl (fun acc v => addOne acc.1 acc.2 v) (stEx64x1F, emptyArr)

/-- `RemoveByIndex(0)` on `[10, 20, 30]`. -/
def c7Swap : AllocState Int × DynArray Int := removeByIndex c7Pre.1 c7Pre.2 0

/-- `RemoveByIndexSlide(0)` on `[10, 20, 30]`. -/
def c7Slide : AllocState Int × DynArray Int :=
  removeByIndexSlide c7Pre.1 c7Pre.2 0

/-- `ElementCountMax = 128`, `RingElementCount = 8` (16 rings), the
uninitialised memory past the 16 bitmap bytes holding zeros. -/
def stEx128x8 : AllocState Int := initAlloc 128 8 jZero bjZero 0

/-- Fifteen single-element allocations on `stEx128x8`: blocks occupying
rings 0..14, one ring each. -/
def c5Blockers : AllocState Int × List (MemBlock Int) :=
  (List.range 15).foldl
    (fun acc _ => let pr := allocBlock acc.1 1; (pr.2, acc.2 ++ [pr.1]))
    (stEx128x8, [])

/-- Deallocate the blocker blocks of rings 6, 7, 8, 10, 11 and 13, leaving
rings 0..5, 9, 12 and 14 in use and rings 6, 7, 8, 10, 11, 13, 15 free. -/
def c5Holes : AllocState Int :=
  [6, 7, 8, 10, 11, 13].foldl
    (fun st k => (dealloc st (c5Blockers.2.getD k { start := Addr.null, count := 0 })).1)
    c5Blockers.1

/-- Fifteen single `Add`s of `10, 20, ..., 150` to a fresh dynamic array on
`c5Holes`: ends with live count 15, capacity 16, block at rings 7..8. -/
def c5Pre : AllocState Int × DynArray Int :=
  (List.range 15).foldl
    (fun acc k => addOne acc.1 acc.2 (((k : Int) + 1) * 10)) (c5Holes, emptyArr)

/-- The sixteenth `Add`: growth requests 32 elements and the scan, reading
zero bytes past the end of the bitmap, hands out rings 15..22 of a 16-ring
pool — a block reaching past the element buffer.  The relocation copy then
writes elements 8..15 outside the buffer. -/
def c5Post : AllocState Int × DynArray Int := addOne c5Pre.1 c5Pre.2 160

/-- First allocation (2 elements) from a fresh one-element-ring pool of 8. -/
def c4Alloc1 : MemBlock Int × AllocState Int :=
  allocBlock (initAlloc 8 1 jFF bjZero 0) 2

/-- Second allocation (3 elements) from the same pool: rings 2..4. -/
def c4Alloc2 : MemBlock Int × AllocState Int := allocBlock c4Alloc1.2 3

/-- Deallocation of the first block while the second stays live. -/
def c4After : AllocState Int × MemBlock Int := dealloc c4Alloc2.2 c4Alloc1.1

/-- Inductive invariant of the allocator trace semantics, for constant ring
size `ring` and bitmap length `total`: live pool blocks are pairwise
disjoint, and every ring of a live pool block that lies inside the bitmap is
marked used (255). -/
structure C1Inv {α : Type} (ring total : Nat) (ts : TraceState α) : Prop where
  hring : ts.st.ringEltCount = ring
  htot : totalRingCount ts.st = total
  hlen : ts.st.ringUsed.length = total
  hdisj : ts.live.Pairwise (poolDisjoint ring)
  hmark : ∀ blk ∈ ts.live, ∀ off, blk.start = Addr.pool off → 0 < blk.count →
    off / ring < total ∧
    ∀ ρ, off / ring ≤ ρ → ρ < off / ring + blk.count.toNat / ring →
      ρ < total → byteAt ts.st ρ = 255

/-! Helper lemmas. -/

theorem writeRange_length {α : Type} (vs : List α) :
    ∀ (l : List α) (s : Nat), (writeRange l s vs).length = l.length := by
  induction vs with
  | nil => intro l s; rfl
  | cons v vs ih =>
    intro l s
    simp only [writeRange]
    rw [ih, List.length_set]

theorem writeRange_getElem? {α : Type} (vs : List α) :
    ∀ (l : List α) (s j : Nat),
      (writeRange l s vs)[j]? =
        if s ≤ j ∧ j < s + vs.length ∧ j < l.length then vs[j - s]?
        else l[j]? := by
  induction vs with
  | nil =>
    intro l s j
    simp only [writeRange, List.length_nil]
    rw [if_neg]
    omega
  | cons v vs ih =>
    intro l s j
    simp only [writeRange, List.length_cons]
    rw [ih, List.length_set, List.getElem?_set]
    by_cases hsj : s = j
    · subst hsj
      rw [if_neg (by omega), if_pos rfl]
      by_cases hl : s < l.length
      · rw [if_pos hl, if_pos ⟨le_refl s, by omega, hl⟩]
        simp
      · rw [if_neg hl, if_neg (by omega)]
        exact (List.getElem?_eq_none (by omega)).symm
    · rw [if_neg hsj]
      by_cases hc : s + 1 ≤ j ∧ j < s + 1 + vs.length ∧ j < l.length
      · rw [if_pos hc, if_pos ⟨by omega, by omega, hc.2.2⟩]
        have hj : j - s = (j - (s + 1)) + 1 := by omega
        rw [hj, List.getElem?_cons_succ]
      · have hnc : ¬(s ≤ j ∧ j < s + (vs.length + 1) ∧ j < l.length) := by
          rintro ⟨h1, h2, h3⟩
          exact hc ⟨by omega, by omega, h3⟩
        rw [if_neg hc, if_neg hnc]

/-- Bytes of the ring bitmap after a `memset` of `c` copies of `v` at `s`:
inside the written (and owned) range the byte is `v`, elsewhere unchanged. -/
theorem byteAt_writeRange {α : Type} (st st2 : AllocState α) (s c v : Nat)
    (hru : st2.ringUsed = writeRange st.ringUsed s (List.replicate c v))
    (hj : st2.junk = st.junk) (ρ : Nat) :
    byteAt st2 ρ =
      if s ≤ ρ ∧ ρ < s + c ∧ ρ < st.ringUsed.length then v else byteAt st ρ := by
  unfold byteAt
  rw [hru, hj, writeRange_getElem?, List.length_replicate]
  by_cases hc : s ≤ ρ ∧ ρ < s + c ∧ ρ < st.ringUsed.length
  · rw [if_pos hc, if_pos hc, List.getElem?_replicate, if_pos (by omega)]
  · rw [if_neg hc, if_neg hc]

/-- An all-zero 8-byte read means each of the 8 bytes is zero. -/
theorem ring8_zero_bytes {α : Type} (st : AllocState α) (i : Nat)
    (h : ring8 st i = 0) : ∀ ρ, i ≤ ρ → ρ < i + 8 → byteAt st ρ = 0 := by
  unfold ring8 at h
  intro ρ h1 h2
  have hk : ρ = i ∨ ρ = i + 1 ∨ ρ = i + 2 ∨ ρ = i + 3 ∨ ρ = i + 4 ∨
      ρ = i + 5 ∨ ρ = i + 6 ∨ ρ = i + 7 := by omega
  rcases hk with rfl | rfl | rfl | rfl | rfl | rfl | rfl | rfl <;> omega

/-- Soundness of the scan: a successful scan returns a run every in-bitmap
ring of which was read as free, whose start ring lies inside the bitmap, and
whose capacity covers the request. -/
theorem allocScan_sound {α : Type} (st : AllocState α) (count : Nat) :
    ∀ (fuel i start rings : Nat) (trace tr : List Nat) (s r : Nat),
      i = start + rings →
      (∀ ρ, start ≤ ρ → ρ < i → ρ < totalRingCount st → byteAt st ρ = 0) →
      (0 < rings → start < totalRingCount st) →
      allocScan st count fuel i start rings trace = (some (s, r), tr) →
      (∀ ρ, s ≤ ρ → ρ < s + r → ρ < totalRingCount st → byteAt st ρ = 0) ∧
        (0 < r → s < totalRingCount st) ∧ count ≤ r * st.ringEltCount ∧
        0 < totalRingCount st := by
  intro fuel
  induction fuel with
  | zero =>
    intro i start rings trace tr s r h1 h2 h3 hres
    simp [allocScan] at hres
  | succ fuel ih =>
    intro i start rings trace tr s r hi hfree hstart hres
    simp only [allocScan] at hres
    by_cases hlt : i < totalRingCount st
    · rw [if_pos hlt] at hres
      by_cases hz : ring8 st i = 0
      · rw [if_pos hz] at hres
        have hm8 : min count 8 ≤ 8 := by omega
        by_cases hchk : (rings + min count 8) * st.ringEltCount ≥ count
        · rw [if_pos hchk] at hres
          simp only [Prod.mk.injEq, Option.some.injEq] at hres
          obtain ⟨⟨hs, hr⟩, _⟩ := hres
          subst hs; subst hr
          refine ⟨?_, ?_, hchk, by omega⟩
          · intro ρ h1 h2 h3
            by_cases hρ : ρ < i
            · exact hfree ρ h1 hρ h3
            · exact ring8_zero_bytes st i hz ρ (by omega) (by omega)
          · intro _
            rcases Nat.eq_zero_or_pos rings with h0 | h0
            · omega
            · exact hstart h0
        · rw [if_neg hchk] at hres
          refine ih (i + min count 8) start (rings + min count 8) _ tr s r
            (by omega) ?_ ?_ hres
          · intro ρ h1 h2 h3
            by_cases hρ : ρ < i
            · exact hfree ρ h1 hρ h3
            · exact ring8_zero_bytes st i hz ρ (by omega) (by omega)
          · intro _
            rcases Nat.eq_zero_or_pos rings with h0 | h0
            · omega
            · exact hstart h0
      · rw [if_neg hz] at hres
        by_cases hfull : ring8 st i = val64Full
        · rw [if_pos hfull] at hres
          exact ih (i + 8) (i + 8) 0 _ tr s r rfl (by omega) (by omega) hres
        · rw [if_neg hfull] at hres
          by_cases hb : byteAt st i ≠ 0
          · rw [if_pos hb] at hres
            exact ih (i + 1) (i + 1) 0 _ tr s r rfl (by omega) (by omega) hres
          · rw [if_neg hb] at hres
            have hb0 : byteAt st i = 0 := by omega
            by_cases hchk : (rings + 1) * st.ringEltCount ≥ count
            · rw [if_pos hchk] at hres
              simp only [Prod.mk.injEq, Option.some.injEq] at hres
              obtain ⟨⟨hs, hr⟩, _⟩ := hres
              subst hs; subst hr
              refine ⟨?_, ?_, hchk, by omega⟩
              · intro ρ h1 h2 h3
                by_cases hρ : ρ < i
                · exact hfree ρ h1 hρ h3
                · have : ρ = i := by omega
                  rw [this]; exact hb0
              · intro _
                rcases Nat.eq_zero_or_pos rings with h0 | h0
                · omega
                · exact hstart h0
            · rw [if_neg hchk] at hres
              refine ih (i + 1) start (rings + 1) _ tr s r (by omega) ?_ ?_ hres
              · intro ρ h1 h2 h3
                by_cases hρ : ρ < i
                · exact hfree ρ h1 hρ h3
                · have : ρ = i := by omega
                  rw [this]; exact hb0
              · intro _
                rcases Nat.eq_zero_or_pos rings with h0 | h0
                · omega
                · exact hstart h0
    · rw [if_neg hlt] at hres
      simp at hres

theorem mem_of_getElem?_eq_some {β : Type} {l : List β} {i : Nat} {b : β}
    (h : l[i]? = some b) : b ∈ l := by
  obtain ⟨hlt, rfl⟩ := List.getElem?_eq_some.mp h
  exact List.getElem_mem hlt

/-- From a pairwise relation, the element at index `i` is related (in one
order or the other) to every element that survives `eraseIdx i`. -/
theorem pairwise_rel_eraseIdx {β : Type} {R : β → β → Prop} :
    ∀ (l : List β) (i : Nat) (b : β), l.Pairwise R → l[i]? = some b →
      ∀ b2 ∈ l.eraseIdx i, R b b2 ∨ R b2 b := by
  intro l
  induction l with
  | nil => intro i b _ hget; simp at hget
  | cons x xs ih =>
    intro i b hp hget b2 hmem
    obtain ⟨hx, hxs⟩ := List.pairwise_cons.mp hp
    cases i with
    | zero =>
      simp only [List.getElem?_cons_zero, Option.some.injEq] at hget
      subst hget
      simp only [List.eraseIdx_cons_zero] at hmem
      exact Or.inl (hx b2 hmem)
    | succ j =>
      simp only [List.getElem?_cons_succ] at hget
      simp only [List.eraseIdx_cons_succ, List.mem_cons] at hmem
      rcases hmem with rfl | hmem
      · exact Or.inr (hx b (mem_of_getElem?_eq_some hget))
      · exact ih j b hxs hget b2 hmem

/-- `byteAt` only depends on the bitmap contents and the adjacent memory. -/
theorem byteAt_congr {α : Type} (st st2 : AllocState α)
    (h1 : st2.ringUsed = st.ringUsed) (h2 : st2.junk = st.junk) (ρ : Nat) :
    byteAt st2 ρ = byteAt st ρ := by
  unfold byteAt
  rw [h1, h2]

theorem poolDisjoint_comm {α : Type} {r : Nat} {b1 b2 : MemBlock α}
    (h : poolDisjoint r b1 b2) : poolDisjoint r b2 b1 :=
  fun ρ h2 h1 => h ρ h1 h2

/-- Transfer the invariant to a state with the same bitmap, adjacent memory
and pool geometry, and a sublist of the live blocks. -/
theorem C1Inv_transfer {α : Type} (ring total : Nat) (st st2 : AllocState α)
    (l1 l2 : List (MemBlock α)) (h : C1Inv ring total ⟨st, l1⟩)
    (hru : st2.ringUsed = st.ringUsed) (hj : st2.junk = st.junk)
    (hemax : st2.eltCountMax = st.eltCountMax)
    (hrelt : st2.ringEltCount = st.ringEltCount)
    (hsub : List.Sublist l2 l1) : C1Inv ring total ⟨st2, l2⟩ := by
  obtain ⟨hring, htot, hlen, hdisj, hmark⟩ := h
  refine ⟨?_, ?_, ?_, ?_, ?_⟩
  · rw [hrelt]; exact hring
  · unfold totalRingCount at htot ⊢
    rw [hemax, hrelt]; exact htot
  · rw [hru]; exact hlen
  · exact hdisj.sublist hsub
  · intro blk hmem off hs hc
    obtain ⟨h1, h2⟩ := hmark blk (hsub.subset hmem) off hs hc
    refine ⟨h1, fun ρ ha hb hcρ => ?_⟩
    rw [byteAt_congr st st2 hru hj ρ]
    exact h2 ρ ha hb hcρ


/-- Result of `Alloc` when the scan succeeds. -/
theorem allocBlock_pool_fst {α : Type} (st : AllocState α) (n s r : Nat)
    (tr : List Nat)
    (hscan : allocScan st n (totalRingCount st + 1) 0 0 0 [] = (some (s, r), tr)) :
    (allocBlock st n).1 =
      { start := Addr.pool (s * st.ringEltCount)
        count := ((r * st.ringEltCount : Nat) : Int) } := by
  simp [allocBlock, hscan]

/-- Bitmap written by a successful `Alloc`. -/
theorem allocBlock_pool_ringUsed {α : Type} (st : AllocState α) (n s r : Nat)
    (tr : List Nat)
    (hscan : allocScan st n (totalRingCount st + 1) 0 0 0 [] = (some (s, r), tr)) :
    (allocBlock st n).2.ringUsed = writeRange st.ringUsed s (List.replicate r 255) := by
  simp [allocBlock, hscan]

/-- Result of `Alloc` when the scan fails (heap fallback). -/
theorem allocBlock_heap_fst {α : Type} (st : AllocState α) (n : Nat)
    (tr : List Nat)
    (hscan : allocScan st n (totalRingCount st + 1) 0 0 0 [] = (none, tr)) :
    (allocBlock st n).1 = { start := Addr.heap st.nextHeapId, count := (n : Int) } := by
  simp [allocBlock, hscan]

/-- The heap fallback leaves the bitmap untouched. -/
theorem allocBlock_heap_ringUsed {α : Type} (st : AllocState α) (n : Nat)
    (tr : List Nat)
    (hscan : allocScan st n (totalRingCount st + 1) 0 0 0 [] = (none, tr)) :
    (allocBlock st n).2.ringUsed = st.ringUsed := by
  simp [allocBlock, hscan]

/-- `Alloc` never changes the adjacent memory, the pool geometry, or the
length of the bitmap. -/
theorem allocBlock_frame {α : Type} (st : AllocState α) (n : Nat) :
    (allocBlock st n).2.junk = st.junk ∧
      (allocBlock st n).2.eltCountMax = st.eltCountMax ∧
      (allocBlock st n).2.ringEltCount = st.ringEltCount ∧
      (allocBlock st n).2.ringUsed.length = st.ringUsed.length := by
  unfold allocBlock
  rcases hscan : (allocScan st n (totalRingCount st + 1) 0 0 0 []).1 with _ | ⟨s, r⟩
  · simp
  · simp [writeRange_length]

/-- `Dealloc` never changes the adjacent memory, the pool geometry, or the
length of the bitmap. -/
theorem dealloc_frame {α : Type} (st : AllocState α) (blk : MemBlock α) :
    (dealloc st blk).1.junk = st.junk ∧
      (dealloc st blk).1.eltCountMax = st.eltCountMax ∧
      (dealloc st blk).1.ringEltCount = st.ringEltCount ∧
      (dealloc st blk).1.ringUsed.length = st.ringUsed.length := by
  unfold dealloc
  by_cases hc : blk.count ≤ 0
  · simp [hc]
  · rcases blk.start with _ | off | id
    · simp [hc]
    · by_cases hr : (off : Int) + blk.count ≤ (st.eltCountMax : Int)
      · simp [hc, hr, writeRange_length]
      · simp [hc, hr]
    · simp [hc]

/-- What `Dealloc` can do to the bitmap: either leave it unchanged, or (for a
live pool block passing the address-range test) clear exactly the bytes
`[off/ring, off/ring + count/ring)`. -/
theorem dealloc_ringUsed_cases {α : Type} (st : AllocState α) (blk : MemBlock α) :
    (dealloc st blk).1.ringUsed = st.ringUsed ∨
      ∃ off, blk.start = Addr.pool off ∧ 0 < blk.count ∧
        (off : Int) + blk.count ≤ (st.eltCountMax : Int) ∧
        (dealloc st blk).1.ringUsed = writeRange st.ringUsed
          (off / st.ringEltCount)
          (List.replicate (blk.count.toNat / st.ringEltCount) 0) := by
  unfold dealloc
  by_cases hc : blk.count ≤ 0
  · simp [hc]
  · rcases hs : blk.start with _ | off | id
    · simp [hc]
    · by_cases hr : (off : Int) + blk.count ≤ (st.eltCountMax : Int)
      · refine Or.inr ⟨off, rfl, by omega, hr, ?_⟩
        simp [hc, hr]
      · simp [hc, hr]
    · simp [hc]

/-- `Alloc` preserves the invariant: the freshly returned block (pool or
heap) joins the live list without overlapping any live pool block. -/
theorem C1Inv_alloc {α : Type} (ring total : Nat) (ts : TraceState α) (n : Nat)
    (h : C1Inv ring total ts) :
    C1Inv ring total (traceStep ts (AllocOp.alloc n)) := by
  obtain ⟨hring, htot, hlen, hdisj, hmark⟩ := h
  obtain ⟨hfj, hfe, hfr, hflen⟩ := allocBlock_frame ts.st n
  have hstep : traceStep ts (AllocOp.alloc n) =
      ⟨(allocBlock ts.st n).2, ts.live ++ [(allocBlock ts.st n).1]⟩ := rfl
  rw [hstep]
  rcases hscan : allocScan ts.st n (totalRingCount ts.st + 1) 0 0 0 [] with ⟨res, tr⟩
  rcases res with _ | ⟨s, r⟩
  · -- fallback: a fresh heap block; the bitmap is untouched
    have hfst := allocBlock_heap_fst ts.st n tr hscan
    have hru := allocBlock_heap_ringUsed ts.st n tr hscan
    refine ⟨by rw [hfr]; exact hring, ?_, by rw [hru]; exact hlen, ?_, ?_⟩
    · unfold totalRingCount at htot ⊢
      rw [hfe, hfr]; exact htot
    · refine List.pairwise_append.mpr ⟨hdisj, by simp, ?_⟩
      intro a hma b hmb ρ hia hib
      rw [List.mem_singleton] at hmb
      subst hmb
      obtain ⟨off, hoff, -, -, -⟩ := hib
      rw [hfst] at hoff
      exact Addr.noConfusion hoff
    · intro blk hmem off hs hc
      rcases List.mem_append.mp hmem with hold | hnew
      · obtain ⟨h1, h2⟩ := hmark blk hold off hs hc
        refine ⟨h1, fun ρ ha hb hcρ => ?_⟩
        rw [byteAt_congr ts.st (allocBlock ts.st n).2 hru hfj ρ]
        exact h2 ρ ha hb hcρ
      · rw [List.mem_singleton] at hnew
        subst hnew
        rw [hfst] at hs
        exact Addr.noConfusion hs
  · -- a pool block: its rings were all read free, live rings are marked used
    have hfst := allocBlock_pool_fst ts.st n s r tr hscan
    have hru := allocBlock_pool_ringUsed ts.st n s r tr hscan
    obtain ⟨Hfree, Hstart, Hcount, Htot0⟩ :=
      allocScan_sound ts.st n (totalRingCount ts.st + 1) 0 0 0 [] tr s r rfl
        (fun ρ _ h2 _ => absurd h2 (Nat.not_lt_zero ρ))
        (fun h0 => absurd h0 (lt_irrefl 0)) hscan
    rw [htot] at Htot0
    simp only [htot] at Hfree Hstart
    have hR : 0 < ring := by
      rcases Nat.eq_zero_or_pos ring with h0 | h0
      · exfalso
        have hz : totalRingCount ts.st = 0 := by
          unfold totalRingCount
          rw [hring, h0, Nat.div_zero]
        omega
      · exact h0
    have hby : ∀ ρ, byteAt (allocBlock ts.st n).2 ρ =
        if s ≤ ρ ∧ ρ < s + r ∧ ρ < ts.st.ringUsed.length then 255
        else byteAt ts.st ρ :=
      byteAt_writeRange ts.st (allocBlock ts.st n).2 s r 255 hru hfj
    refine ⟨by rw [hfr]; exact hring, ?_, by rw [hflen]; exact hlen, ?_, ?_⟩
    · unfold totalRingCount at htot ⊢
      rw [hfe, hfr]; exact htot
    · refine List.pairwise_append.mpr ⟨hdisj, by simp, ?_⟩
      intro a hma b hmb ρ hia hib
      rw [List.mem_singleton] at hmb
      subst hmb
      obtain ⟨offa, hsa, hca, halo, hahi⟩ := hia
      obtain ⟨offb, hsb, hcb, hblo, hbhi⟩ := hib
      rw [hfst] at hsb hcb hbhi
      injection hsb with hoffb
      rw [hring] at hoffb hcb hbhi
      subst hoffb
      simp only [Int.toNat_natCast] at hbhi
      rw [Nat.mul_div_cancel s hR] at hblo hbhi
      rw [Nat.mul_div_cancel r hR] at hbhi
      have hrpos : 0 < r := by
        simp only [Int.natCast_pos] at hcb
        by_contra h4
        simp [Nat.eq_zero_of_not_pos h4] at hcb
      obtain ⟨halo2, hamark⟩ := hmark a hma offa hsa hca
      by_cases hρt : ρ < total
      · have h255 := hamark ρ halo hahi hρt
        have h0 := Hfree ρ hblo hbhi hρt
        omega
      · have h255 := hamark (total - 1) (by omega) (by omega) (by omega)
        have hs_lt : s < total := Hstart hrpos
        have h0 := Hfree (total - 1) (by omega) (by omega) (by omega)
        omega
    · intro blk hmem off hs hc
      rcases List.mem_append.mp hmem with hold | hnew
      · obtain ⟨h1, h2⟩ := hmark blk hold off hs hc
        refine ⟨h1, fun ρ ha hb hcρ => ?_⟩
        rw [hby ρ]
        split
        · rfl
        · exact h2 ρ ha hb hcρ
      · rw [List.mem_singleton] at hnew
        subst hnew
        rw [hfst] at hs hc ⊢
        injection hs with hoff
        rw [hring] at hoff hc ⊢
        subst hoff
        simp only [Int.toNat_natCast]
        rw [Nat.mul_div_cancel s hR, Nat.mul_div_cancel r hR]
        have hrpos : 0 < r := by
          simp only [Int.natCast_pos] at hc
          by_contra h4
          simp [Nat.eq_zero_of_not_pos h4] at hc
        refine ⟨Hstart hrpos, ?_⟩
        intro ρ h1 h2 h3
        rw [hby ρ, if_pos ⟨h1, h2, by rw [hlen]; exact h3⟩]

/-- `Dealloc` of a live block preserves the invariant: it clears only that
block's own rings, which no other live block shares. -/
theorem C1Inv_dealloc {α : Type} (ring total : Nat) (ts : TraceState α) (i : Nat)
    (h : C1Inv ring total ts) :
    C1Inv ring total (traceStep ts (AllocOp.dealloc i)) := by
  rcases hget : ts.live[i]? with _ | blk
  · have hstep : traceStep ts (AllocOp.dealloc i) = ts := by
      simp [traceStep, hget]
    rw [hstep]
    exact h
  · have hstep : traceStep ts (AllocOp.dealloc i) =
        ⟨(dealloc ts.st blk).1, ts.live.eraseIdx i⟩ := by
      simp [traceStep, hget]
    rw [hstep]
    obtain ⟨hfj, hfe, hfr, hflen⟩ := dealloc_frame ts.st blk
    rcases dealloc_ringUsed_cases ts.st blk with hsame | ⟨off, hoff, hcpos, hrange, hru⟩
    · exact C1Inv_transfer ring total ts.st (dealloc ts.st blk).1 ts.live
        (ts.live.eraseIdx i) h hsame hfj hfe hfr (List.eraseIdx_sublist _ _)
    · obtain ⟨hring, htot, hlen, hdisj, hmark⟩ := h
      refine ⟨by rw [hfr]; exact hring, ?_,
        by rw [hflen]; exact hlen,
        hdisj.sublist (List.eraseIdx_sublist _ _), ?_⟩
      · unfold totalRingCount at htot ⊢
        rw [hfe, hfr]
        exact htot
      · intro blk2 hmem2 off2 hs2 hc2
        have hmem2b : blk2 ∈ ts.live := (List.eraseIdx_sublist _ _).subset hmem2
        obtain ⟨h1, h2⟩ := hmark blk2 hmem2b off2 hs2 hc2
        refine ⟨h1, ?_⟩
        intro ρ ha hb hcρ
        have hby := byteAt_writeRange ts.st (dealloc ts.st blk).1
          (off / ts.st.ringEltCount) (blk.count.toNat / ts.st.ringEltCount) 0
          hru hfj ρ
        rw [hby]
        split
        · next hcond =>
          exfalso
          rw [hring] at hcond
          have hin1 : inRingRange ring blk ρ :=
            ⟨off, hoff, hcpos, hcond.1, hcond.2.1⟩
          have hin2 : inRingRange ring blk2 ρ := ⟨off2, hs2, hc2, ha, hb⟩
          rcases pairwise_rel_eraseIdx ts.live i blk hdisj hget blk2 hmem2 with hd | hd
          · exact hd ρ hin1 hin2
          · exact hd ρ hin2 hin1
        · exact h2 ρ ha hb hcρ

/-- Any single client call preserves the invariant. -/
theorem C1Inv_step {α : Type} (ring total : Nat) (ts : TraceState α)
    (op : AllocOp) (h : C1Inv ring total ts) :
    C1Inv ring total (traceStep ts op) := by
  cases op with
  | alloc n => exact C1Inv_alloc ring total ts n h
  | dealloc i => exact C1Inv_dealloc ring total ts i h

/-- Any sequence of client calls preserves the invariant. -/
theorem C1Inv_run {α : Type} (ring total : Nat) (ops : List AllocOp) :
    ∀ ts : TraceState α, C1Inv ring total ts →
      C1Inv ring total (runTrace ops ts) := by
  induction ops with
  | nil => intro ts h; exact h
  | cons op ops ih => intro ts h; exact ih (traceStep ts op) (C1Inv_step ring total ts op h)

/-- The invariant holds right after `Init`. -/
theorem C1Inv_init {α : Type} (elt ring : Nat) (junk : Nat → Nat)
    (bufJunk : Nat → α) (z : α) :
    C1Inv ring (elt / ring) ⟨initAlloc elt ring junk bufJunk z, []⟩ := by
  refine ⟨rfl, rfl, ?_, List.Pairwise.nil, ?_⟩
  · simp [initAlloc]
  · intro blk hmem
    simp at hmem

/-- `Dealloc` of a block whose count is not positive returns everything
unchanged. -/
theorem dealloc_nonpos {α : Type} (st : AllocState α) (blk : MemBlock α)
    (h : blk.count ≤ 0) : dealloc st blk = (st, blk) := by
  simp [dealloc, h]

/-- Any non-trivial `Dealloc` path zeroes the descriptor's count. -/
theorem dealloc_snd_count {α : Type} (st : AllocState α) (blk : MemBlock α)
    (h : ¬blk.count ≤ 0) : (dealloc st blk).2.count = 0 := by
  unfold dealloc
  rw [if_neg h]
  rcases hs : blk.start with _ | off | id
  · rfl
  · by_cases hr : (off : Int) + blk.count ≤ (st.eltCountMax : Int)
    · simp [hr]
    · simp [hr]
  · rfl

/-- `Dealloc` of a live heap-fallback block frees the heap allocation and
zeroes the count, leaving the pool state untouched. -/
theorem dealloc_heap_eq {α : Type} (st : AllocState α) (blk : MemBlock α)
    (id : Nat) (hs : blk.start = Addr.heap id) (hc : 0 < blk.count) :
    dealloc st blk =
      ({ st with heapLive := st.heapLive.erase id }, { blk with count := 0 }) := by
  unfold dealloc
  rw [if_neg (by omega), hs]

/-- `Dealloc` of a live pool block passing the address-range test clears the
bytes `[off/ring, off/ring + count/ring)` and zeroes the count. -/
theorem dealloc_pool_in_eq {α : Type} (st : AllocState α) (blk : MemBlock α)
    (off : Nat) (hs : blk.start = Addr.pool off) (hc : 0 < blk.count)
    (hr : (off : Int) + blk.count ≤ (st.eltCountMax : Int)) :
    dealloc st blk =
      ({ st with ringUsed := writeRange st.ringUsed (off / st.ringEltCount) (List.replicate (blk.count.toNat / st.ringEltCount) 0) },
       { blk with count := 0 }) := by
  unfold dealloc
  rw [if_neg (by omega), hs]
  simp [hr]

/-! Claim theorems. -/

/-- Claim C1: For every sequence of `Alloc` and `Dealloc` calls on one
initialized `ChainAllocator`, any two simultaneously-live blocks served from
the pool buffer occupy disjoint ring ranges: the ring range marked used for a
newly returned pool block never overlaps the ring range of any other
still-live pool block. -/
theorem C1_pool_blocks_disjoint {α : Type} (elt ring : Nat) (junk : Nat → Nat)
    (bufJunk : Nat → α) (z : α) (ops : List AllocOp) :
    ((runTrace ops ⟨initAlloc elt ring junk bufJunk z, []⟩).live).Pairwise
      (poolDisjoint ring) :=
  (C1Inv_run ring (elt / ring) ops ⟨initAlloc elt ring junk bufJunk z, []⟩
    (C1Inv_init elt ring junk bufJunk z)).hdisj

/-- Claim C9: `Dealloc` is idempotent on the same `MemBlock` descriptor:
every non-trivial `Dealloc` path (pool and heap-fallback alike) zeroes the
descriptor's count before returning, so a second `Dealloc` of the same
descriptor takes the `count <= 0` early return and leaves the allocator's
bitmap and buffer unchanged. -/
theorem C9_dealloc_idempotent {α : Type} (st : AllocState α) (blk : MemBlock α) :
    dealloc (dealloc st blk).1 (dealloc st blk).2 = dealloc st blk := by
  by_cases hc : blk.count ≤ 0
  · simp [dealloc_nonpos st blk hc]
  · have hsnd := dealloc_snd_count st blk hc
    rw [dealloc_nonpos (dealloc st blk).1 (dealloc st blk).2 (by rw [hsnd])]

/-- Claim C4: `Dealloc` of a block with `count <= 0` changes nothing;
`Dealloc` of a live heap-fallback block releases that storage and leaves the
usage bitmap unchanged; `Dealloc` of a live pool block clears exactly the
bitmap rings of that block's range and leaves all other bitmap rings
unchanged; non-trivial paths zero the descriptor's count. -/
theorem C4_dealloc_frame_effects {α : Type} (st : AllocState α)
    (blk : MemBlock α) :
    (blk.count ≤ 0 → dealloc st blk = (st, blk)) ∧
      (∀ id, blk.start = Addr.heap id → 0 < blk.count →
        (dealloc st blk).1.ringUsed = st.ringUsed ∧
          (dealloc st blk).1.heapLive = st.heapLive.erase id ∧
          (dealloc st blk).2 = { blk with count := 0 }) ∧
      (∀ off, blk.start = Addr.pool off → 0 < blk.count →
        (off : Int) + blk.count ≤ (st.eltCountMax : Int) →
        (∀ ρ, off / st.ringEltCount ≤ ρ →
            ρ < off / st.ringEltCount + blk.count.toNat / st.ringEltCount →
            ρ < st.ringUsed.length → byteAt (dealloc st blk).1 ρ = 0) ∧
          (∀ ρ, ρ < off / st.ringEltCount ∨
              off / st.ringEltCount + blk.count.toNat / st.ringEltCount ≤ ρ →
              byteAt (dealloc st blk).1 ρ = byteAt st ρ) ∧
          (dealloc st blk).2 = { blk with count := 0 }) := by
  refine ⟨fun hc => dealloc_nonpos st blk hc, ?_, ?_⟩
  · intro id hs hc
    rw [dealloc_heap_eq st blk id hs hc]
    exact ⟨rfl, rfl, rfl⟩
  · intro off hs hc hr
    have heq := dealloc_pool_in_eq st blk off hs hc hr
    have hby := byteAt_writeRange st (dealloc st blk).1
      (off / st.ringEltCount) (blk.count.toNat / st.ringEltCount) 0
      (by rw [heq]) (by rw [heq]) 
    refine ⟨?_, ?_, by rw [heq]⟩
    · intro ρ h1 h2 h3
      rw [hby ρ, if_pos ⟨h1, h2, h3⟩]
    · intro ρ h1
      rw [hby ρ, if_neg]
      rintro ⟨h2, h3, h4⟩
      omega

/-- Witness for C4 at a concrete input: a fresh 8-ring pool with two live
blocks (rings 0..1 and 2..4); deallocating the first clears ring 0 and leaves
ring 2 as it was. -/
theorem C4_dealloc_frame_effects_witness :
    byteAt c4After.1 0 = 0 ∧ byteAt c4After.1 2 = byteAt c4Alloc2.2 2 :=
  ⟨((C4_dealloc_frame_effects c4Alloc2.2 c4Alloc1.1).2.2 0 (by decide)
      (by decide) (by decide)).1 0 (by decide) (by decide) (by decide),
   ((C4_dealloc_frame_effects c4Alloc2.2 c4Alloc1.1).2.2 0 (by decide)
      (by decide) (by decide)).2.1 2 (by decide)⟩

/-- A successful scan can never return fewer elements than requested, and the
heap fallback returns exactly the request, so `Alloc(n)` always hands out a
block of at least `n` elements. -/
theorem allocBlock_count_ge {α : Type} (st : AllocState α) (n : Nat) :
    n ≤ (allocBlock st n).1.count.toNat := by
  rcases hscan : allocScan st n (totalRingCount st + 1) 0 0 0 [] with ⟨res, tr⟩
  rcases res with _ | ⟨s, r⟩
  · rw [allocBlock_heap_fst st n tr hscan]
    simp
  · rw [allocBlock_pool_fst st n s r tr hscan]
    obtain ⟨-, -, Hcount, -⟩ :=
      allocScan_sound st n (totalRingCount st + 1) 0 0 0 [] tr s r rfl
        (fun ρ _ h2 _ => absurd h2 (Nat.not_lt_zero ρ))
        (fun h0 => absurd h0 (lt_irrefl 0)) hscan
    simpa using Hcount

/-- `Add` without growth: the block is kept, only the live count moves. -/
theorem addMany_no_grow {α : Type} (st : AllocState α) (arr : DynArray α)
    (vs : List α) (h : ¬(arr.eltCount + vs.length ≥ capacity arr)) :
    addMany st arr vs =
      (writeBlock st arr.block arr.eltCount vs,
       { arr with eltCount := arr.eltCount + vs.length }) := by
  simp only [addMany]
  rw [if_neg h]

/-- A growing `Reserve` adopts the freshly allocated block. -/
theorem reserve_grow_block {α : Type} (st : AllocState α) (arr : DynArray α)
    (newCap : Nat) (h : ¬(newCap ≤ capacity arr)) :
    (reserve st arr newCap).2.block = (allocBlock st newCap).1 := by
  simp only [reserve]
  rw [if_neg h]

/-- Capacity after a growing `Add`: the count of the block returned by the
allocator for the request `max(Capacity()*2, m_EltCount+Count)`. -/
theorem addMany_capacity_grow {α : Type} (st : AllocState α) (arr : DynArray α)
    (vs : List α) (h : arr.eltCount + vs.length ≥ capacity arr)
    (h2 : ¬(max (capacity arr * 2) (arr.eltCount + vs.length) ≤ capacity arr)) :
    capacity (addMany st arr vs).2 =
      (allocBlock st (max (capacity arr * 2) (arr.eltCount + vs.length))).1.count.toNat := by
  unfold capacity
  simp only [addMany]
  rw [if_pos h, reserve_grow_block st arr _ h2]
  rfl

/-- Claim C6 (amended): adding one element to a `DynArray` leaves
`Capacity()` unchanged when the resulting count `Count()+1` is still strictly
below `Capacity()`; an `Add` whose resulting count is greater than or equal
to the current capacity (so also the `Add` that would exactly fill the
array) triggers growth through `Reserve(max(Capacity()*2, Count()+1))`, and
the new capacity is the allocator-returned block size, which is at least the
requested amount and strictly larger than the old capacity. -/
theorem C6_addOne_capacity {α : Type} (st : AllocState α) (arr : DynArray α)
    (v : α) :
    (arr.eltCount + 1 < capacity arr →
      capacity (addOne st arr v).2 = capacity arr) ∧
      (capacity arr ≤ arr.eltCount + 1 →
        max (capacity arr * 2) (arr.eltCount + 1) ≤ capacity (addOne st arr v).2 ∧
          capacity arr < capacity (addOne st arr v).2) := by
  constructor
  · intro hlt
    have hcond : ¬(arr.eltCount + [v].length ≥ capacity arr) := by
      simp only [List.length_singleton]
      omega
    unfold addOne
    rw [addMany_no_grow st arr [v] hcond]
    rfl
  · intro hge
    have hcond : arr.eltCount + [v].length ≥ capacity arr := by
      simp only [List.length_singleton]
      omega
    have hreq : ¬(max (capacity arr * 2) (arr.eltCount + [v].length) ≤ capacity arr) := by
      simp only [List.length_singleton]
      omega
    unfold addOne
    have hcap := addMany_capacity_grow st arr [v] hcond hreq
    simp only [List.length_singleton] at hcap
    rw [hcap]
    have hge2 := allocBlock_count_ge st (max (capacity arr * 2) (arr.eltCount + 1))
    omega

/-- Claim C6 counterexample: on a fresh `ElementCountMax = 64`,
`RingElementCount = 8` pool, after seven single `Add`s the array has
`Count() = 7` strictly below `Capacity() = 8`, yet the next single `Add`
changes `Capacity()` to 16, because the growth test is
`m_EltCount+Count >= Capacity()` rather than a strict comparison. -/
theorem C6_counterexample :
    c6Pre.2.eltCount = 7 ∧ capacity c6Pre.2 = 8 ∧
      c6Pre.2.eltCount < capacity c6Pre.2 ∧ capacity c6Post.2 = 16 ∧
      capacity c6Post.2 ≠ capacity c6Pre.2 := by
  decide

/-- Witness for the amended C6 at a concrete input: the eighth `Add` on the
count-7, capacity-8 array requests `max(8*2, 7+1) = 16` and gets at least
that much. -/
theorem C6_addOne_capacity_witness :
    max (capacity c6Pre.2 * 2) (c6Pre.2.eltCount + 1) ≤
      capacity (addOne c6Pre.1 c6Pre.2 8).2 :=
  ((C6_addOne_capacity c6Pre.1 c6Pre.2 8).2 (by decide)).1

/-- Claim C7: on a `DynArray` holding `[10, 20, 30]` (index 0 within
`[0, Count())`), `RemoveByIndex(0)` leaves `[30, 20]` with `Count() = 2`
(swap with last, order not preserved), while `RemoveByIndexSlide(0)` leaves
`[20, 30]` with `Count() = 2` (tail shifted down, order preserved). -/
theorem C7_remove_semantics (_h : 0 < c7Pre.2.eltCount) :
    readBlock c7Pre.1 c7Pre.2.block 0 c7Pre.2.eltCount = [10, 20, 30] ∧
      c7Swap.2.eltCount = 2 ∧
      readBlock c7Swap.1 c7Swap.2.block 0 2 = [30, 20] ∧
      c7Slide.2.eltCount = 2 ∧
      readBlock c7Slide.1 c7Slide.2.block 0 2 = [20, 30] := by
  decide

/-- Witness for C7: index 0 is a valid index of `[10, 20, 30]`. -/
theorem C7_remove_semantics_witness :
    0 < c7Pre.2.eltCount ∧ c7Swap.2.eltCount = 2 :=
  ⟨by decide, (C7_remove_semantics (by decide)).2.1⟩

/-- Claim C2 (evaluation at the spec's own example): on a freshly initialized
allocator with `ElementCountMax = 64` and `RingElementCount = 8`, the naive
one-ring-at-a-time first-fit scan that rounds the request up to ring
granularity serves `Alloc(5)` with one ring (8 elements), but the code's scan
returns a block of 5 rings (40 elements, zero-filled): the fast path adds
`min(Count, 8)` to `ChainRingCount`, treating the element count `Count` as a
ring count. -/
theorem C2_alloc5_returns_40_not_8 :
    naiveFirstFit stEx64x8 5 = some (0, 1) ∧
      (allocBlock stEx64x8 5).1.start = Addr.pool 0 ∧
      (allocBlock stEx64x8 5).1.count = 40 ∧
      readBlock (allocBlock stEx64x8 5).2 (allocBlock stEx64x8 5).1 0 40 =
        List.replicate 40 0 := by
  decide

/-- Claim C3 (evaluation at a failing input): on a fresh 9-ring pool
(`ElementCountMax = 9`, `RingElementCount = 1`) with zero bytes in the
uninitialised memory past the bitmap, no sufficient contiguous free run for
`Alloc(10)` exists (10 > 9 rings), yet `Alloc(10)` does not return a heap
fallback: it returns a pool block of 16 elements starting at element 0,
violating the code's own `dbg_assert` range check. -/
theorem C3_exhaustion_not_heap_fallback :
    naiveFirstFit stEx9x1 10 = none ∧
      (allocBlock stEx9x1 10).1.start = Addr.pool 0 ∧
      (allocBlock stEx9x1 10).1.count = 16 ∧
      ¬allocAssertOk stEx9x1 0 16 := by
  decide

/-- Claim C10 (evaluation at a failing input): on a fresh 4-ring pool
(`ElementCountMax = 4`, `RingElementCount = 1`), the very first iteration of
the `Alloc(1)` scan performs its 8-byte read at ring index 0, which requires
`0 + 7 < TOTAL_RING_COUNT` — but `TOTAL_RING_COUNT = 4`, so the read touches
bytes at and past the end of the bitmap. -/
theorem C10_scan_reads_past_bitmap :
    (allocScan stEx4x1 1 (totalRingCount stEx4x1 + 1) 0 0 0 []).2 = [0] ∧
      ¬(0 + 7 < totalRingCount stEx4x1) := by
  decide

set_option maxRecDepth 100000 in
/-- Claim C5 (evaluation at a failing input): in the `c5Pre` state the array
holds 15 elements `10..150` (element 8 is 90, in the pool buffer);
the 16th `Add` relocates the array into a block of rings 15..22 of a 16-ring
pool (tripping the code's own `dbg_assert`), so the copy writes elements
8..14 outside the 128-element buffer and element 8 no longer reads back as
90: a previously added element does not retain its value across this `Add`. -/
theorem C5_growth_loses_elements :
    c5Pre.2.eltCount = 15 ∧
      arrGet c5Pre.1 c5Pre.2 8 = 90 ∧
      arrGet c5Post.1 c5Post.2 8 = 0 ∧
      ¬allocAssertOk c5Pre.1 15 8 := by
  decide

/-- Claim C8: for every `DynArraySB`, once the active storage pointer has
switched from the inline small buffer to separately allocated heap storage,
no subsequent operation (clear, shrink, or further growth) ever switches it
back to the inline buffer. -/
theorem C8_sb_never_reverts (ops : List SBOp) :
    ∀ sb : DynArraySB, sb.onHeap = true → (sbRun ops sb).onHeap = true := by
  induction ops with
  | nil => intro sb h; exact h
  | cons op ops ih =>
    intro sb h
    refine ih (sbStep sb op) ?_
    cases op with
    | clear => simp [sbStep, sbClear, h, parentClear]
    | allocLen n => simp [sbStep, sbAlloc, parentAlloc]
    | setSizeZero n =>
      simp only [sbStep, sbSetSizeZero, parentSetSize]
      split
      · simp [parentAlloc]
      · simp [h]

/-- Witness for C8: a 4-element inline array grown to 9 elements (now on the
heap) stays on the heap across a `clear` and a shrinking `set_size_zero`. -/
theorem C8_sb_never_reverts_witness :
    (sbRun [SBOp.clear, SBOp.setSizeZero 1] (sbAlloc (sbInit 4) 9)).onHeap = true :=
  C8_sb_never_reverts [SBOp.clear, SBOp.setSizeZero 1] (sbAlloc (sbInit 4) 9)
    (by decide)
